import Mathlib

/-!
Verification of the UNO reinforcement-learning repository
(`state_action_reward.py`, `agents.py`, `cards.py`, `turn.py`, `game.py`)
as a shallow embedding in Lean 4.

Conventions of the embedding:
* Python tuples of mixed string/int components become Lean structures.
* Python floats become `ℚ` (the numeric claims are about exact arithmetic).
* Python lists become Lean `List`s; `list.pop()` removes the last element.
* Fallible operations (e.g. popping an empty list) return `Option`.
* The module `players.py` is imported by the sources but is not part of the
  source tree; the few `Player` operations needed (`draw`, `play_counter`)
  are modelled from the specification and marked as such.
-/

/-- A state of the discretized UNO state space, as generated by
`states()` in `state_action_reward.py`: a Python tuple whose component 0 is
an open-card color string and whose components 1..16 are card counts.
We store component 0 as `color` and components 1..16 as the list `counts`. -/
structure UnoState where
  color : String
  counts : List Nat
deriving DecidableEq, Repr

/-- The four color strings, first factor of the `itertools.product` call in
`states()` (`states = [["RED", "GRE", "BLU", "YEL"]]`). -/
def stateColors : List String := ["RED", "GRE", "BLU", "YEL"]

/-- The per-component maxima of `states_dict` in `states()`, in insertion
order: 4 normal colors (max 2), 3 specials, 2 wilds, 4 normal playable
flags, 3 special playable flags (max 1 each). -/
def statesDictVals : List Nat := [2, 2, 2, 2, 1, 1, 1, 1, 1, 1, 1, 1, 1, 1, 1, 1]

/-- `range(0, val + 1)` for each component, as in the loop of `states()`. -/
def stateRanges : List (List Nat) := statesDictVals.map (fun v => List.range (v + 1))

/-- Cartesian product of a list of ranges, mirroring `itertools.product`:
the first factor varies slowest. -/
def listProd : List (List Nat) → List (List Nat)
  | [] => [[]]
  | r :: rs => r.flatMap (fun x => (listProd rs).map (fun t => x :: t))

/-- The filter of `states()`: components `1..7` of the tuple dominate
components `10..16` (held count of each of the 7 flagged types is at least
its playable-flag count).  On `counts` (components 1..16 re-indexed from 0)
this compares index `i` with index `i + 9` for `i = 0..6`. -/
def stateInvariant (c : List Nat) : Bool :=
  decide (c.getD 0 0 ≥ c.getD 9 0) &&
  decide (c.getD 1 0 ≥ c.getD 10 0) &&
  decide (c.getD 2 0 ≥ c.getD 11 0) &&
  decide (c.getD 3 0 ≥ c.getD 12 0) &&
  decide (c.getD 4 0 ≥ c.getD 13 0) &&
  decide (c.getD 5 0 ≥ c.getD 14 0) &&
  decide (c.getD 6 0 ≥ c.getD 15 0)

/-- All tuples produced by `itertools.product(*states)` in `states()`. -/
def statesRaw : List UnoState :=
  stateColors.flatMap (fun c => (listProd stateRanges).map (fun t => ⟨c, t⟩))

/-- `states()` of `state_action_reward.py`: the raw product filtered by the
held-vs-playable invariant. -/
def statesList : List UnoState := statesRaw.filter (fun s => stateInvariant s.counts)

/-- `actions()` of `state_action_reward.py`. -/
def actionsList : List String :=
  ["RED", "GRE", "BLU", "YEL", "SKI", "REV", "PL2", "PL4", "COL"]

/-- `sum(states[i][1:10])`: the sum of the nine held-count components
(components 1..9 of the tuple, i.e. the first nine entries of `counts`),
excluding all playable-flag components. -/
def heldSum (s : UnoState) : Nat := (s.counts.take 9).sum

/-- `min(sum(states[i][1:10]), 1)`, the threshold-clamped held-count sum
(`states_t` in `rewards`). -/
def clampedHeldSum (s : UnoState) : Nat := min (heldSum s) 1

/-- One row of the reward matrix `R` built by `rewards(states, actions)`:
the row of state `s` is all ones when `states_t = 0` and stays the zero row
otherwise. -/
def rewardRow (actions : List String) (s : UnoState) : List ℚ :=
  if clampedHeldSum s = 0 then actions.map (fun _ => (1 : ℚ))
  else actions.map (fun _ => (0 : ℚ))

/-- `rewards(states, actions)` of `state_action_reward.py`: the reward
matrix, one row per state in order, one column per action. -/
def rewards (states : List UnoState) (actions : List String) : List (List ℚ) :=
  states.map (rewardRow actions)

/-- `R.loc[state, action]`: the reward-table lookup used by the agents.  By
construction of `rewards` the entry of state `s` and any action is `1` when
the clamped held-count sum is `0` and `0` otherwise. -/
def rewardOf (s : UnoState) (_a : String) : ℚ :=
  if clampedHeldSum s = 0 then 1 else 0

-- Sanity: the matrix entries coincide with the lookup function.
theorem rewards_entry_eq_rewardOf (states : List UnoState) (actions : List String)
    (s : UnoState) (hs : s ∈ states) (a : String) (_ha : a ∈ actions) :
    ∃ row ∈ rewards states actions, ∀ q ∈ row, q = rewardOf s a := by
  refine ⟨rewardRow actions s, List.mem_map_of_mem _ hs, ?_⟩
  intro q hq
  unfold rewardRow rewardOf at *
  by_cases h : clampedHeldSum s = 0 <;> simp [h] at hq ⊢ <;> exact hq.2

/-- Membership in `listProd`: a tuple is in the product iff it picks one
element from each range, in order. -/
theorem mem_listProd {rs : List (List Nat)} {t : List Nat} :
    t ∈ listProd rs ↔ List.Forall₂ (· ∈ ·) t rs := by
  induction rs generalizing t with
  | nil =>
    constructor
    · intro h
      simp [listProd] at h
      subst h
      exact List.Forall₂.nil
    · intro h
      cases h
      simp [listProd]
  | cons r rs ih =>
    simp only [listProd, List.mem_flatMap, List.mem_map]
    constructor
    · rintro ⟨x, hx, t', ht', rfl⟩
      exact List.Forall₂.cons hx (ih.mp ht')
    · intro h
      cases h with
      | cons hx ht =>
        exact ⟨_, hx, _, ih.mpr ht, rfl⟩

/-- Membership in the raw product of `states()`. -/
theorem mem_statesRaw {s : UnoState} :
    s ∈ statesRaw ↔ s.color ∈ stateColors ∧ List.Forall₂ (· ∈ ·) s.counts stateRanges := by
  cases s with
  | mk c t =>
    simp only [statesRaw, List.mem_flatMap, List.mem_map]
    constructor
    · rintro ⟨c', hc', t', ht', h⟩
      cases h
      exact ⟨hc', mem_listProd.mp ht'⟩
    · rintro ⟨hc, ht⟩
      exact ⟨c, hc, t, mem_listProd.mpr ht, rfl⟩

/-- Membership in `states()`: raw-product membership plus the invariant. -/
theorem mem_statesList {s : UnoState} :
    s ∈ statesList ↔
      (s.color ∈ stateColors ∧ List.Forall₂ (· ∈ ·) s.counts stateRanges)
        ∧ stateInvariant s.counts = true := by
  simp only [statesList, List.mem_filter, mem_statesRaw]

/-- The per-component bounds of the enumerated tuples: 16 components, each
bounded by the ceiling recorded in `states_dict`. -/
def countsOk (t : List Nat) : Prop :=
  t.length = 16 ∧ ∀ i, i < 16 → t.getD i 0 ≤ statesDictVals.getD i 0

instance : DecidablePred countsOk := by
  intro t
  unfold countsOk
  infer_instance

/-- Picking one element from each range of `states()` is the same as
satisfying the per-component ceilings. -/
theorem forall₂_stateRanges_iff {t : List Nat} :
    List.Forall₂ (· ∈ ·) t stateRanges ↔ countsOk t := by
  have hrlen : stateRanges.length = 16 := rfl
  have hvlen : statesDictVals.length = 16 := rfl
  rw [List.forall₂_iff_get]
  constructor
  · rintro ⟨hlen, h⟩
    have hl : t.length = 16 := by rw [hlen, hrlen]
    refine ⟨hl, ?_⟩
    intro i hi
    have h1 : i < t.length := by omega
    have h2 : i < stateRanges.length := by omega
    have h3 : i < statesDictVals.length := by omega
    have hmem := h i h1 h2
    have hr : stateRanges.get ⟨i, h2⟩ = List.range (statesDictVals[i] + 1) := by
      simp [stateRanges]
    have hti : t.get ⟨i, h1⟩ = t[i] := rfl
    rw [hr, hti, List.mem_range] at hmem
    have ht : t.getD i 0 = t[i] := by
      simp [List.getD_eq_getElem?_getD, List.getElem?_eq_getElem h1]
    have hv : statesDictVals.getD i 0 = statesDictVals[i] := by
      simp [List.getD_eq_getElem?_getD, List.getElem?_eq_getElem h3]
    rw [ht, hv]
    omega
  · rintro ⟨hl, hb⟩
    have hlen : t.length = stateRanges.length := by rw [hl, hrlen]
    refine ⟨hlen, ?_⟩
    intro i h1 h2
    have h3 : i < statesDictVals.length := by omega
    have hi : i < 16 := by omega
    have hbi := hb i hi
    have ht : t.getD i 0 = t[i] := by
      simp [List.getD_eq_getElem?_getD, List.getElem?_eq_getElem h1]
    have hv : statesDictVals.getD i 0 = statesDictVals[i] := by
      simp [List.getD_eq_getElem?_getD, List.getElem?_eq_getElem h3]
    have hr : stateRanges.get ⟨i, h2⟩ = List.range (statesDictVals[i] + 1) := by
      simp [stateRanges]
    have hti : t.get ⟨i, h1⟩ = t[i] := rfl
    rw [hr, hti, List.mem_range]
    omega

/-- The held ≥ playable filter, expressed pointwise. -/
theorem stateInvariant_iff {t : List Nat} :
    stateInvariant t = true ↔ ∀ i, i < 7 → t.getD (i + 9) 0 ≤ t.getD i 0 := by
  unfold stateInvariant
  simp only [Bool.and_eq_true, decide_eq_true_eq]
  constructor
  · rintro ⟨⟨⟨⟨⟨⟨h0, h1⟩, h2⟩, h3⟩, h4⟩, h5⟩, h6⟩
    intro i hi
    interval_cases i <;> assumption
  · intro h
    exact ⟨⟨⟨⟨⟨⟨h 0 (by omega), h 1 (by omega)⟩, h 2 (by omega)⟩, h 3 (by omega)⟩,
      h 4 (by omega)⟩, h 5 (by omega)⟩, h 6 (by omega)⟩

/-- Full characterization of membership in `states()`, used to settle
concrete membership questions without enumerating the product. -/
theorem mem_statesList_iff {s : UnoState} :
    s ∈ statesList ↔
      s.color ∈ stateColors ∧ countsOk s.counts ∧
        ∀ i, i < 7 → s.counts.getD (i + 9) 0 ≤ s.counts.getD i 0 := by
  rw [mem_statesList, forall₂_stateRanges_iff, stateInvariant_iff]
  tauto

/-- A concrete enumerated state holding exactly one red card
(held-count sum 1) and nothing else. -/
def oneRedState : UnoState := ⟨"RED", [1, 0, 0, 0, 0, 0, 0, 0, 0, 0, 0, 0, 0, 0, 0, 0]⟩

/-- A concrete enumerated state holding no cards at all. -/
def emptyHandState : UnoState := ⟨"RED", List.replicate 16 0⟩

/-- C1 (counterexample): the reward table built by `rewards` assigns the
all-zero row to the enumerated state `oneRedState`, whose threshold-clamped
held-count sum is 1 and hence `≤ 1`; the claim would require the reward 1
for this state. -/
theorem rewards_zero_at_clamped_sum_one :
    oneRedState ∈ statesList ∧
    clampedHeldSum oneRedState ≤ 1 ∧
    rewards statesList actionsList = statesList.map (rewardRow actionsList) ∧
    rewardRow actionsList oneRedState = List.replicate 9 (0 : ℚ) ∧
    rewardRow actionsList oneRedState ≠ List.replicate 9 (1 : ℚ) := by
  refine ⟨?_, by decide, rfl, by decide, by decide⟩
  rw [mem_statesList_iff]; decide

/-- C1 (amended): every row of the reward table built by
`rewards(states, actions)` is constant across the 9 actions, and the common
entry of the row of `s` equals 1 iff the threshold-clamped held-count sum of
`s` (equivalently, the held-count sum itself) is 0, and equals 0
otherwise. -/
theorem rewards_uniform_and_one_iff_heldSum_zero :
    rewards statesList actionsList
        = statesList.map (fun s => actionsList.map (fun a => rewardOf s a)) ∧
    ∀ s, s ∈ statesList → ∀ a, a ∈ actionsList → ∀ b, b ∈ actionsList →
      rewardOf s a = rewardOf s b ∧
      (rewardOf s a = 1 ↔ clampedHeldSum s = 0) ∧
      (rewardOf s a = 1 ↔ heldSum s = 0) ∧
      (rewardOf s a = 0 ↔ clampedHeldSum s ≠ 0) := by
  constructor
  · have hrow : ∀ s, rewardRow actionsList s = actionsList.map (fun a => rewardOf s a) := by
      intro s
      by_cases h : clampedHeldSum s = 0 <;> simp [rewardRow, rewardOf, h]
    simp [rewards, hrow]
  · intro s _ a _ b _
    have hcl : clampedHeldSum s = 0 ↔ heldSum s = 0 := by
      unfold clampedHeldSum; omega
    by_cases h : clampedHeldSum s = 0 <;>
      simp [rewardOf, h, hcl.symm]

/-- C1 (witness): the amended reward characterization evaluated at the
concrete state `oneRedState` and the concrete actions RED and SKI. -/
theorem rewards_uniform_witness :
    rewardOf oneRedState "RED" = rewardOf oneRedState "SKI" ∧
    (rewardOf oneRedState "RED" = 1 ↔ clampedHeldSum oneRedState = 0) ∧
    (rewardOf oneRedState "RED" = 1 ↔ heldSum oneRedState = 0) ∧
    (rewardOf oneRedState "RED" = 0 ↔ clampedHeldSum oneRedState ≠ 0) :=
  rewards_uniform_and_one_iff_heldSum_zero.2 oneRedState
    (by rw [mem_statesList_iff]; decide) "RED" (by decide) "SKI" (by decide)

/-- C7 (counterexample): two distinct states returned by `states()` agree on
every integer count component — the returned tuples carry an additional
color component, so `states()` is not the filtered Cartesian product of the
count ranges alone ("containing no other components" fails). -/
theorem states_not_determined_by_counts :
    (⟨"RED", List.replicate 16 0⟩ : UnoState) ∈ statesList ∧
    (⟨"GRE", List.replicate 16 0⟩ : UnoState) ∈ statesList ∧
    (⟨"RED", List.replicate 16 0⟩ : UnoState) ≠ ⟨"GRE", List.replicate 16 0⟩ ∧
    (UnoState.mk "RED" (List.replicate 16 0)).counts
      = (UnoState.mk "GRE" (List.replicate 16 0)).counts := by
  refine ⟨?_, ?_, by decide, rfl⟩ <;> (rw [mem_statesList_iff]; decide)

/-- C7 (amended): `states()` returns exactly the tuples made of a leading
color component ranging over the four normal colors together with 16
count components — held counts bounded by 2 for the four normal colors and
by 1 for each special and wild type, playable-flag counts bounded by 1 —
filtered by the invariant that each of the seven flagged types holds at
least as many cards as its playable-flag count. -/
theorem states_characterization :
    ∀ s : UnoState, s ∈ statesList ↔
      (s.color ∈ stateColors ∧
       s.counts.length = 16 ∧
       (∀ i, i < 4 → s.counts.getD i 0 ≤ 2) ∧
       (∀ i, 4 ≤ i → i < 16 → s.counts.getD i 0 ≤ 1) ∧
       (∀ i, i < 7 → s.counts.getD (i + 9) 0 ≤ s.counts.getD i 0)) := by
  intro s
  rw [mem_statesList_iff]
  unfold countsOk
  constructor
  · rintro ⟨hc, ⟨hl, hb⟩, hinv⟩
    refine ⟨hc, hl, ?_, ?_, hinv⟩
    · intro i hi
      have hbi := hb i (by omega)
      interval_cases i <;> simpa using hbi
    · intro i h4 h16
      have hbi := hb i (by omega)
      interval_cases i <;> simpa using hbi
  · rintro ⟨hc, hl, hb4, hb16, hinv⟩
    refine ⟨hc, ⟨hl, ?_⟩, hinv⟩
    intro i hi
    by_cases h : i < 4
    · have := hb4 i h
      interval_cases i <;> simpa using this
    · have := hb16 i (by omega) hi
      interval_cases i <;> simpa using this

/-- C7 (witness): the characterization of `states()` applied at the
concrete state `oneRedState`, yielding its membership. -/
theorem states_characterization_witness : oneRedState ∈ statesList :=
  (states_characterization oneRedState).mpr (by decide)

/-- Point update of a dense table, the effect of a single
`df.loc[s, a] = v` assignment on a table viewed as a function. -/
def updTable (f : UnoState → String → ℚ) (s : UnoState) (a : String) (v : ℚ) :
    UnoState → String → ℚ :=
  fun s' a' => if s' = s ∧ a' = a then v else f s' a'

theorem updTable_same (f : UnoState → String → ℚ) (s : UnoState) (a : String) (v : ℚ) :
    updTable f s a v s a = v := by
  simp [updTable]

theorem updTable_other (f : UnoState → String → ℚ) (s : UnoState) (a : String) (v : ℚ)
    (s' : UnoState) (a' : String) (h : ¬(s' = s ∧ a' = a)) :
    updTable f s a v s' a' = f s' a' := by
  simp [updTable, h]

/-- The Q-learning agent of `agents.py` (class `QLearningAgent`): the base
`Agent` tables plus the previous state/action pair.  The Python code uses
the integer 0 as the "no previous pair yet" sentinel (`self.prev_state = 0`
and the guard `self.prev_state != 0`); no state tuple ever equals the
integer 0, so the sentinel is modelled as `none`. -/
structure QLAgent where
  epsilon : ℚ
  step_size : ℚ
  R : UnoState → String → ℚ
  q : UnoState → String → ℚ
  visit : UnoState → String → ℚ
  prev : Option (UnoState × String)

/-- `QLearningAgent.__init__` via `Agent.__init__`: stores the rates, builds
the reward table and zero-initializes the Q and visit tables; the previous
pair starts at the sentinel. -/
def QLAgent.init (epsilon step_size : ℚ) : QLAgent :=
  { epsilon := epsilon
    step_size := step_size
    R := rewardOf
    q := fun _ _ => 0
    visit := fun _ _ => 0
    prev := none }

/-- `QLearningAgent.update`: with no previous pair, only record the pair;
otherwise apply the (non-standard) Bellman update to the previous pair,
increment its visit count, and record the pair. -/
def QLAgent.update (ag : QLAgent) (state : UnoState) (action : String) : QLAgent :=
  match ag.prev with
  | none => { ag with prev := some (state, action) }
  | some (ps, pa) =>
      let prev_q := ag.q ps pa
      let this_q := ag.q state action
      let reward := ag.R state action
      let newv : ℚ :=
        if reward = 0 then prev_q + ag.step_size * (reward + this_q - prev_q)
        else prev_q + ag.step_size * (reward - prev_q)
      { ag with
        q := updTable ag.q ps pa newv
        visit := updTable ag.visit ps pa (ag.visit ps pa + 1)
        prev := some (state, action) }

/-- C2: on an update call with a recorded previous pair, the entry of the
previous pair becomes `prev_q + step_size * (r + curr_q - prev_q)` when the
reward of the current pair is 0 (bootstrapping off the value of the action
actually taken this step), and `prev_q + step_size * (r - prev_q)` with no
bootstrap term when the reward is nonzero; in particular `prev_q = 0.2`,
`step_size = 0.1`, `r = 1` yields `0.28`; and the visit count of the
previous pair is incremented on every such call. -/
theorem qlearning_update_formulas (ag : QLAgent) (ps : UnoState) (pa : String)
    (s : UnoState) (a : String) (hprev : ag.prev = some (ps, pa)) :
    (ag.R s a = 0 →
      (ag.update s a).q ps pa
        = ag.q ps pa + ag.step_size * (ag.R s a + ag.q s a - ag.q ps pa)) ∧
    (ag.R s a ≠ 0 →
      (ag.update s a).q ps pa
        = ag.q ps pa + ag.step_size * (ag.R s a - ag.q ps pa)) ∧
    (ag.q ps pa = 0.2 → ag.step_size = 0.1 → ag.R s a = 1 →
      (ag.update s a).q ps pa = 0.28) ∧
    (ag.update s a).visit ps pa = ag.visit ps pa + 1 := by
  unfold QLAgent.update
  rw [hprev]
  refine ⟨?_, ?_, ?_, ?_⟩
  · intro h0
    simp [h0, updTable_same]
  · intro h0
    simp [h0, updTable_same]
  · intro hq hs hr
    simp only [hr, updTable_same, if_neg (by norm_num : (1 : ℚ) ≠ 0), hq, hs]
    norm_num
  · exact updTable_same ..

/-- A concrete Q-learning agent with `prev_q = 0.2` recorded for the pair
`(oneRedState, RED)`, used to instantiate the update formulas. -/
def qlWitnessAgent : QLAgent :=
  { epsilon := 0
    step_size := 0.1
    R := rewardOf
    q := updTable (fun _ _ => 0) oneRedState "RED" 0.2
    visit := fun _ _ => 0
    prev := some (oneRedState, "RED") }

/-- C2 (witness): the update formulas instantiated at a terminal step
(`emptyHandState` has reward 1): `0.2 + 0.1 * (1 - 0.2) = 0.28`, and the
visit count of the previous pair goes from 0 to 1. -/
theorem qlearning_update_witness :
    (qlWitnessAgent.update emptyHandState "GRE").q oneRedState "RED" = 0.28 ∧
    (qlWitnessAgent.update emptyHandState "GRE").visit oneRedState "RED" = 1 := by
  have h := qlearning_update_formulas qlWitnessAgent oneRedState "RED"
    emptyHandState "GRE" rfl
  constructor
  · refine h.2.2.1 ?_ ?_ ?_
    · simp [qlWitnessAgent, updTable]
    · rfl
    · decide
  · have hv := h.2.2.2
    rw [hv]
    norm_num [qlWitnessAgent]

/-- C6 (counterexample): the agent object persists across the games of a
tournament and nothing resets the previous pair between games
(`Game.__init__` always ends a game with a terminal `agent.update` call and
never clears `prev_state`); hence, modelling a first game consisting of a
single update call followed by the first update call of the next game, the
latter call increments a visit count and rewrites a Q entry instead of doing
nothing. -/
theorem qlearning_next_game_first_update_modifies :
    (((QLAgent.init 0 0.1).update oneRedState "RED").update emptyHandState "GRE").visit
        oneRedState "RED" = 1 ∧
    ((QLAgent.init 0 0.1).update oneRedState "RED").visit oneRedState "RED" = 0 ∧
    (((QLAgent.init 0 0.1).update oneRedState "RED").update emptyHandState "GRE").q
        oneRedState "RED" = 0.1 ∧
    ((QLAgent.init 0 0.1).update oneRedState "RED").q oneRedState "RED" = 0 := by
  refine ⟨?_, rfl, ?_, rfl⟩ <;>
    norm_num [QLAgent.init, QLAgent.update, updTable, rewardOf, clampedHeldSum, heldSum,
      emptyHandState]

/-- C6 (amended): the first update call after the agent's construction (the
first call of the agent's first game) only records the given pair as the
previous pair: the Q table and the visit table are returned unchanged. -/
theorem qlearning_first_update_records_only (e st : ℚ) (s : UnoState) (a : String) :
    ((QLAgent.init e st).update s a).q = (QLAgent.init e st).q ∧
    ((QLAgent.init e st).update s a).visit = (QLAgent.init e st).visit ∧
    ((QLAgent.init e st).update s a).prev = some (s, a) := by
  refine ⟨rfl, rfl, rfl⟩

/-- The Monte Carlo agent of `agents.py` (class `MonteCarloAgent`): the base
`Agent` tables plus the three episode buffers. -/
structure MCAgent where
  epsilon : ℚ
  step_size : ℚ
  R : UnoState → String → ℚ
  q : UnoState → String → ℚ
  visit : UnoState → String → ℚ
  state_seen : List UnoState
  action_seen : List String
  q_seen : List (UnoState × String)

/-- `MonteCarloAgent.__init__` via `Agent.__init__`: rates, reward table,
zero Q and visit tables, empty episode buffers. -/
def MCAgent.init (epsilon step_size : ℚ) : MCAgent :=
  { epsilon := epsilon
    step_size := step_size
    R := rewardOf
    q := fun _ _ => 0
    visit := fun _ _ => 0
    state_seen := []
    action_seen := []
    q_seen := [] }

/-- The episode-tracking tail of `MonteCarloAgent.step`, given the action
the epsilon-greedy policy chose (the choice itself is randomized; the
claims concern the bookkeeping that follows it): append the pair to the
first-visit buffers when it is not yet in `q_seen`, always append it to
`q_seen`, and increment its visit count. -/
def MCAgent.stepRecord (ag : MCAgent) (state : UnoState) (action : String) : MCAgent :=
  let ag1 :=
    if (state, action) ∈ ag.q_seen then ag
    else { ag with
      state_seen := ag.state_seen ++ [state]
      action_seen := ag.action_seen ++ [action] }
  { ag1 with
    q_seen := ag1.q_seen ++ [(state, action)]
    visit := updTable ag1.visit state action (ag1.visit state action + 1) }

/-- `MonteCarloAgent.update`: compute the terminal reward once, sweep the
zipped first-visit buffers updating each recorded pair in order, then clear
all three episode buffers. -/
def MCAgent.update (ag : MCAgent) (state : UnoState) (action : String) : MCAgent :=
  let reward := ag.R state action
  let q' := (ag.state_seen.zip ag.action_seen).foldl
    (fun qt p => updTable qt p.1 p.2 (qt p.1 p.2 + ag.step_size * (reward - qt p.1 p.2)))
    ag.q
  { ag with q := q', state_seen := [], action_seen := [], q_seen := [] }

/-- The pairs recorded in the first-visit buffers, as zipped by
`MonteCarloAgent.update`. -/
def MCAgent.visitedPairs (ag : MCAgent) : List (UnoState × String) :=
  ag.state_seen.zip ag.action_seen

/-- Well-formedness of the episode buffers: parallel lengths, no duplicate
recorded pair, and the recorded pairs are exactly the pairs seen by `step`
in this episode. -/
def MCAgent.buffersGood (ag : MCAgent) : Prop :=
  ag.state_seen.length = ag.action_seen.length ∧
  ag.visitedPairs.Nodup ∧
  ∀ p, p ∈ ag.visitedPairs ↔ p ∈ ag.q_seen

/-- The update sweep over a duplicate-free pair list updates each listed
pair exactly once and leaves every other entry alone. -/
theorem foldl_updTable_eval (stepsz r : ℚ) (l : List (UnoState × String)) (hnd : l.Nodup)
    (q0 : UnoState → String → ℚ) (s : UnoState) (a : String) :
    l.foldl (fun qt p => updTable qt p.1 p.2 (qt p.1 p.2 + stepsz * (r - qt p.1 p.2))) q0 s a
      = if (s, a) ∈ l then q0 s a + stepsz * (r - q0 s a) else q0 s a := by
  induction l generalizing q0 with
  | nil => simp
  | cons hd tl ih =>
    rcases hd with ⟨b, c⟩
    rcases List.nodup_cons.mp hnd with ⟨hhd, htl⟩
    simp only [List.foldl_cons]
    rw [ih htl]
    by_cases hmem : (s, a) ∈ tl
    · have hne : ¬(s = b ∧ a = c) := by
        rintro ⟨rfl, rfl⟩
        exact hhd hmem
      rw [if_pos hmem, if_pos (List.mem_cons_of_mem _ hmem),
        updTable_other _ _ _ _ _ _ hne]
    · rw [if_neg hmem]
      by_cases heq : s = b ∧ a = c
      · rcases heq with ⟨rfl, rfl⟩
        rw [updTable_same, if_pos (List.mem_cons_self _ _)]
      · rw [updTable_other _ _ _ _ _ _ heq,
          if_neg (by
            intro hc
            rcases List.mem_cons.mp hc with h | h
            · exact heq ⟨congrArg Prod.fst h, congrArg Prod.snd h⟩
            · exact hmem h)]

/-- The update sweep never touches an entry whose pair is not listed
(no duplicate-freeness needed). -/
theorem foldl_updTable_frame (stepsz r : ℚ) (l : List (UnoState × String))
    (q0 : UnoState → String → ℚ) (s : UnoState) (a : String) (h : (s, a) ∉ l) :
    l.foldl (fun qt p => updTable qt p.1 p.2 (qt p.1 p.2 + stepsz * (r - qt p.1 p.2))) q0 s a
      = q0 s a := by
  induction l generalizing q0 with
  | nil => simp
  | cons hd tl ih =>
    rcases hd with ⟨b, c⟩
    have htl : (s, a) ∉ tl := fun hc => h (List.mem_cons_of_mem _ hc)
    have hne : ¬(s = b ∧ a = c) := by
      rintro ⟨rfl, rfl⟩
      exact h (List.mem_cons_self _ _)
    simp only [List.foldl_cons]
    rw [ih _ htl, updTable_other _ _ _ _ _ _ hne]

/-- `stepRecord` leaves the Q table, rates and reward table alone and
appends exactly its pair to `q_seen`. -/
theorem stepRecord_fields (ag : MCAgent) (s : UnoState) (a : String) :
    (ag.stepRecord s a).q = ag.q ∧
    (ag.stepRecord s a).R = ag.R ∧
    (ag.stepRecord s a).step_size = ag.step_size ∧
    (ag.stepRecord s a).epsilon = ag.epsilon ∧
    (ag.stepRecord s a).q_seen = ag.q_seen ++ [(s, a)] := by
  unfold MCAgent.stepRecord
  by_cases h : (s, a) ∈ ag.q_seen <;> simp [h]

/-- `stepRecord` extends the zipped first-visit buffers by its pair exactly
when the pair is new to the episode. -/
theorem stepRecord_visitedPairs (ag : MCAgent) (s : UnoState) (a : String)
    (hlen : ag.state_seen.length = ag.action_seen.length) :
    (ag.stepRecord s a).visitedPairs
      = (if (s, a) ∈ ag.q_seen then ag.visitedPairs else ag.visitedPairs ++ [(s, a)]) ∧
    (ag.stepRecord s a).state_seen.length = (ag.stepRecord s a).action_seen.length := by
  unfold MCAgent.stepRecord MCAgent.visitedPairs
  by_cases h : (s, a) ∈ ag.q_seen
  · simp [h, hlen]
  · simp only [h, if_neg, ite_false]
    constructor
    · exact List.zip_append hlen
    · simp [hlen]

/-- `stepRecord` preserves buffer well-formedness. -/
theorem stepRecord_buffersGood (ag : MCAgent) (s : UnoState) (a : String)
    (hg : ag.buffersGood) : (ag.stepRecord s a).buffersGood := by
  rcases hg with ⟨hlen, hnd, hiff⟩
  rcases stepRecord_visitedPairs ag s a hlen with ⟨hvp, hlen'⟩
  have hq := (stepRecord_fields ag s a).2.2.2.2
  refine ⟨hlen', ?_, ?_⟩
  · rw [hvp]
    by_cases h : (s, a) ∈ ag.q_seen
    · simpa [h] using hnd
    · rw [if_neg h]
      refine List.Nodup.append hnd (List.nodup_singleton _) ?_
      intro p hp hps
      rcases List.mem_singleton.mp hps with rfl
      exact h ((hiff _).mp hp)
  · intro p
    rw [hvp, hq]
    by_cases h : (s, a) ∈ ag.q_seen
    · rw [if_pos h]
      constructor
      · intro hp
        exact List.mem_append_left _ ((hiff _).mp hp)
      · intro hp
        rcases List.mem_append.mp hp with hp | hp
        · exact (hiff _).mpr hp
        · rcases List.mem_singleton.mp hp with rfl
          exact (hiff _).mpr h
    · rw [if_neg h]
      constructor
      · intro hp
        rcases List.mem_append.mp hp with hp | hp
        · exact List.mem_append_left _ ((hiff _).mp hp)
        · exact List.mem_append_right _ hp
      · intro hp
        rcases List.mem_append.mp hp with hp | hp
        · exact List.mem_append_left _ ((hiff _).mpr hp)
        · exact List.mem_append_right _ hp

/-- A whole episode: the sequence of `step` calls made between two terminal
updates, each recording the pair the policy chose at that decision point. -/
def runEpisode (ag : MCAgent) (steps : List (UnoState × String)) : MCAgent :=
  steps.foldl (fun g p => g.stepRecord p.1 p.2) ag

/-- Running an episode preserves the Q table, the rates and the reward
table, appends exactly the stepped pairs to `q_seen`, and preserves buffer
well-formedness. -/
theorem runEpisode_props (steps : List (UnoState × String)) (ag : MCAgent)
    (hg : ag.buffersGood) :
    (runEpisode ag steps).q = ag.q ∧
    (runEpisode ag steps).R = ag.R ∧
    (runEpisode ag steps).step_size = ag.step_size ∧
    (runEpisode ag steps).q_seen = ag.q_seen ++ steps ∧
    (runEpisode ag steps).buffersGood := by
  induction steps generalizing ag with
  | nil => simpa [runEpisode] using hg
  | cons hd tl ih =>
    have hstep := stepRecord_fields ag hd.1 hd.2
    have hgood := stepRecord_buffersGood ag hd.1 hd.2 hg
    have hrun : runEpisode ag (hd :: tl) = runEpisode (ag.stepRecord hd.1 hd.2) tl := by
      simp [runEpisode]
    rcases ih (ag.stepRecord hd.1 hd.2) hgood with ⟨ihq, ihR, ihs, ihqs, ihg⟩
    refine ⟨?_, ?_, ?_, ?_, ?_⟩
    · rw [hrun, ihq, hstep.1]
    · rw [hrun, ihR, hstep.2.1]
    · rw [hrun, ihs, hstep.2.2.1]
    · rw [hrun, ihqs, hstep.2.2.2.2, List.append_assoc]
      rfl
    · rw [hrun]; exact ihg

/-- C5: starting from clean episode buffers, after any sequence of step
calls the episode-end update computes the terminal reward once and applies
`value += step_size * (r - value)` exactly once to each distinct pair
visited via step during the episode (first-visit de-duplication: a pair
stepped several times is updated once), leaves every other Q entry alone,
and clears all episode buffers. -/
theorem mc_update_first_visit (ag0 : MCAgent) (steps : List (UnoState × String))
    (s : UnoState) (a : String)
    (h1 : ag0.state_seen = []) (h2 : ag0.action_seen = []) (h3 : ag0.q_seen = []) :
    ((runEpisode ag0 steps).update s a).state_seen = [] ∧
    ((runEpisode ag0 steps).update s a).action_seen = [] ∧
    ((runEpisode ag0 steps).update s a).q_seen = [] ∧
    (∀ s' a', (s', a') ∈ steps →
      ((runEpisode ag0 steps).update s a).q s' a'
        = ag0.q s' a' + ag0.step_size * (ag0.R s a - ag0.q s' a')) ∧
    (∀ s' a', (s', a') ∉ steps →
      ((runEpisode ag0 steps).update s a).q s' a' = ag0.q s' a') := by
  have hg0 : ag0.buffersGood := by
    refine ⟨by simp [h1, h2], ?_, ?_⟩
    · simp [MCAgent.visitedPairs, h1, h2]
    · intro p
      simp [MCAgent.visitedPairs, h1, h2, h3]
  rcases runEpisode_props steps ag0 hg0 with ⟨hq, hR, hss, hqs, hlen', hnd', hiff'⟩
  rw [h3] at hqs
  simp only [List.nil_append] at hqs
  refine ⟨rfl, rfl, rfl, ?_, ?_⟩
  · intro s' a' hmem
    show ((runEpisode ag0 steps).visitedPairs.foldl _ (runEpisode ag0 steps).q) s' a' = _
    rw [foldl_updTable_eval _ _ _ hnd',
      if_pos ((hiff' (s', a')).mpr (by rw [hqs]; exact hmem)), hq, hR, hss]
  · intro s' a' hmem
    show ((runEpisode ag0 steps).visitedPairs.foldl _ (runEpisode ag0 steps).q) s' a' = _
    rw [foldl_updTable_frame, hq]
    intro hc
    exact hmem (by rw [← hqs]; exact (hiff' (s', a')).mp hc)

/-- C5 (witness): a single pair visited twice in the episode, with current
value 0, step size 0.5 and terminal reward 1: the episode-end update sets
its value to 0.5 (updated once, not twice), leaves the terminal pair at 0,
and clears the buffers. -/
theorem mc_update_first_visit_witness :
    ((runEpisode (MCAgent.init 0 0.5) [(oneRedState, "RED"), (oneRedState, "RED")]).update
        emptyHandState "GRE").q oneRedState "RED" = 0.5 ∧
    ((runEpisode (MCAgent.init 0 0.5) [(oneRedState, "RED"), (oneRedState, "RED")]).update
        emptyHandState "GRE").q emptyHandState "GRE" = 0 ∧
    ((runEpisode (MCAgent.init 0 0.5) [(oneRedState, "RED"), (oneRedState, "RED")]).update
        emptyHandState "GRE").q_seen = [] := by
  have h := mc_update_first_visit (MCAgent.init 0 0.5)
    [(oneRedState, "RED"), (oneRedState, "RED")] emptyHandState "GRE" rfl rfl rfl
  refine ⟨?_, ?_, h.2.2.1⟩
  · have := h.2.2.2.1 oneRedState "RED" (by decide)
    rw [this]
    norm_num [MCAgent.init, rewardOf]
    decide
  · have := h.2.2.2.2 emptyHandState "GRE" (by decide)
    rw [this]
    rfl

/-- C10: `MonteCarloAgent.update` modifies only the Q entries of pairs
recorded in the zipped first-visit episode buffers; any other entry —
including the terminal pair passed to update itself, unless it was stepped
during the episode — is unchanged, and the reward table, epsilon, step size
and visit table are never modified by update. -/
theorem mc_update_frame (ag : MCAgent) (s : UnoState) (a : String) :
    (∀ s' a', (s', a') ∉ ag.state_seen.zip ag.action_seen →
      (ag.update s a).q s' a' = ag.q s' a') ∧
    ((s, a) ∉ ag.state_seen.zip ag.action_seen →
      (ag.update s a).q s a = ag.q s a) ∧
    (ag.update s a).R = ag.R ∧
    (ag.update s a).epsilon = ag.epsilon ∧
    (ag.update s a).step_size = ag.step_size ∧
    (ag.update s a).visit = ag.visit := by
  refine ⟨?_, ?_, rfl, rfl, rfl, rfl⟩
  · intro s' a' hmem
    exact foldl_updTable_frame _ _ _ _ _ _ hmem
  · intro hmem
    exact foldl_updTable_frame _ _ _ _ _ _ hmem

/-- C10 (witness): with empty episode buffers, updating at a terminal pair
that was never stepped leaves its Q entry (and the reward table) exactly as
before. -/
theorem mc_update_frame_witness :
    ((MCAgent.init 0 1).update emptyHandState "GRE").q emptyHandState "GRE"
        = (MCAgent.init 0 1).q emptyHandState "GRE" ∧
    ((MCAgent.init 0 1).update emptyHandState "GRE").R = (MCAgent.init 0 1).R :=
  ⟨(mc_update_frame (MCAgent.init 0 1) emptyHandState "GRE").2.1 (by simp [MCAgent.init]),
    (mc_update_frame (MCAgent.init 0 1) emptyHandState "GRE").2.2.1⟩

/-- A card value as stored by `cards.py`: either a digit 0–9 or one of the
marker strings ("SKI", "REV", "PL2", "COL", "PL4"). -/
inductive CardValue where
  | num (n : Nat)
  | str (s : String)
deriving DecidableEq, Repr

/-- A card of `cards.py` (`Card(c, v)`). -/
structure Card where
  color : String
  value : CardValue
deriving DecidableEq, Repr

/-- Python list repetition `lst * n`. -/
def pyMul (l : List α) (n : Nat) : List α := (List.replicate n l).flatten

/-- The colors used by `Deck.build`. -/
def deckColors : List String := ["RED", "GRE", "BLU", "YEL"]

/-- `cards_zero` of `Deck.build`: one 0 card per color. -/
def cards_zero : List Card := deckColors.map (fun c => ⟨c, .num 0⟩)

/-- `cards_normal` of `Deck.build`: two of each digit 1–9 per color. -/
def cards_normal : List Card :=
  pyMul (deckColors.flatMap (fun c => (List.range' 1 9).map (fun v => ⟨c, .num v⟩))) 2

/-- `cards_action` of `Deck.build`: two of each of SKI, REV, PL2 per
color. -/
def cards_action : List Card :=
  pyMul (deckColors.flatMap (fun c =>
    (["SKI", "REV", "PL2"]).map (fun v => ⟨c, .str v⟩))) 2

/-- `cards_wild` of `Deck.build`: four of each of COL, PL4. -/
def cards_wild : List Card :=
  pyMul ((["COL", "PL4"]).map (fun v => ⟨"WILD", .str v⟩)) 4

/-- `cards_all` of `Deck.build`, in build order. -/
def cards_all : List Card := cards_normal ++ cards_action ++ cards_zero ++ cards_wild

/-- A deck of `cards.py`: the ordered draw pile `cards` and the discard
pile `cards_disc`. -/
structure Deck where
  cards : List Card
  cards_disc : List Card
deriving DecidableEq, Repr

/-- `Deck.build` starting from the empty piles of `Deck.__init__`: the
draw pile is exactly `cards_all` (shuffling permutes it afterwards; the
theorems below quantify over arbitrary pile contents wherever order
matters). -/
def Deck.build : Deck := ⟨cards_all, []⟩

/-- `Deck.discard`: append a card to the discard pile. -/
def Deck.discard (d : Deck) (c : Card) : Deck :=
  { d with cards_disc := d.cards_disc ++ [c] }

/-- Python's `list.pop()`: remove and return the last element; fails on an
empty list (IndexError). -/
def pyPop (l : List α) : Option (α × List α) :=
  match l.getLast? with
  | none => none
  | some x => some (x, l.dropLast)

/-- `Deck.draw_from_deck`: when the draw pile is empty the discard pile
becomes the new draw pile in its existing order and the discard pile is
cleared; then the last card of the draw pile is popped. -/
def Deck.draw_from_deck (d : Deck) : Option (Card × Deck) :=
  let d' := if d.cards.length = 0 then Deck.mk d.cards_disc [] else d
  (pyPop d'.cards).map (fun p => (p.1, { d' with cards := p.2 }))

theorem pyPop_concat (l : List α) (c : α) : pyPop (l ++ [c]) = some (c, l) := by
  simp [pyPop, List.getLast?_concat, List.dropLast_concat]

theorem pyPop_nil : pyPop ([] : List α) = none := rfl

/-- Draw with a non-empty draw pile: pop its last card, discard pile
untouched. -/
theorem draw_nonempty (rest : List Card) (c : Card) (disc : List Card) :
    Deck.draw_from_deck ⟨rest ++ [c], disc⟩ = some (c, ⟨rest, disc⟩) := by
  unfold Deck.draw_from_deck
  have hne : (rest ++ [c]).length ≠ 0 := by simp
  simp only [hne, if_neg, ite_false, pyPop_concat, Option.map_some']

/-- Draw with an empty draw pile and non-empty discard pile: the discard
pile becomes the draw pile in its existing order (no reshuffle), is
cleared, and its last card is popped. -/
theorem draw_recycle (rest : List Card) (c : Card) :
    Deck.draw_from_deck ⟨[], rest ++ [c]⟩ = some (c, ⟨rest, []⟩) := by
  unfold Deck.draw_from_deck
  simp [pyPop_concat]

/-- Draw with both piles empty fails (the `pop` raises IndexError). -/
theorem draw_both_empty : Deck.draw_from_deck ⟨[], []⟩ = none := rfl

/-- A successful draw removes exactly one card from circulation in the
deck. -/
theorem draw_conservation (d : Deck) (c : Card) (d' : Deck)
    (h : d.draw_from_deck = some (c, d')) :
    d'.cards.length + d'.cards_disc.length + 1 = d.cards.length + d.cards_disc.length := by
  unfold Deck.draw_from_deck at h
  by_cases hc : d.cards.length = 0
  · simp only [hc, if_pos, ite_true] at h
    cases hd : pyPop d.cards_disc with
    | none => rw [hd] at h; simp at h
    | some p =>
      rw [hd] at h
      simp only [Option.map_some', Option.some_inj, Prod.mk.injEq] at h
      unfold pyPop at hd
      cases hl : d.cards_disc.getLast? with
      | none => rw [hl] at hd; simp at hd
      | some x =>
        rw [hl] at hd
        simp only [Option.some_inj] at hd
        have hne : d.cards_disc ≠ [] := by
          intro hnil
          rw [hnil] at hl
          simp at hl
        have : d.cards_disc.dropLast.length + 1 = d.cards_disc.length := by
          rw [List.length_dropLast]
          have := List.length_pos.mpr hne
          omega
        rw [← h.2]
        simp only [← hd]
        simp [hc]
        omega
  · simp only [hc, if_neg, ite_false] at h
    cases hd : pyPop d.cards with
    | none => rw [hd] at h; simp at h
    | some p =>
      rw [hd] at h
      simp only [Option.map_some', Option.some_inj, Prod.mk.injEq] at h
      unfold pyPop at hd
      cases hl : d.cards.getLast? with
      | none => rw [hl] at hd; simp at hd
      | some x =>
        rw [hl] at hd
        simp only [Option.some_inj] at hd
        have hne : d.cards ≠ [] := by
          intro hnil
          rw [hnil] at hl
          simp at hl
        have : d.cards.dropLast.length + 1 = d.cards.length := by
          rw [List.length_dropLast]
          have := List.length_pos.mpr hne
          omega
        rw [← h.2]
        simp only [← hd]
        omega

/-- A draw succeeds whenever at least one pile is non-empty. -/
theorem draw_total (d : Deck) (h : d.cards ≠ [] ∨ d.cards_disc ≠ []) :
    ∃ c d', d.draw_from_deck = some (c, d') := by
  unfold Deck.draw_from_deck
  by_cases hc : d.cards.length = 0
  · have hd : d.cards_disc ≠ [] := by
      rcases h with h | h
      · exact absurd (List.length_eq_zero.mp hc) h
      · exact h
    rcases List.eq_nil_or_concat d.cards_disc with hnil | ⟨rest, c, hcat⟩
    · exact absurd hnil hd
    · refine ⟨c, ⟨rest, []⟩, ?_⟩
      simp [hc, hcat, pyPop_concat]
  · rcases List.eq_nil_or_concat d.cards with hnil | ⟨rest, c, hcat⟩
    · rw [hnil] at hc; simp at hc
    · refine ⟨c, ⟨rest, d.cards_disc⟩, ?_⟩
      simp [hc, hcat, pyPop_concat]

/-- C8 (counterexample): with both piles empty, `draw_from_deck` does not
return a card — the recycling step installs the empty discard pile and the
`pop` fails — so a draw can permanently run out. -/
theorem draw_from_deck_fails_on_empty :
    Deck.draw_from_deck ⟨[], []⟩ = none ∧
    (⟨[], []⟩ : Deck).cards.length + (⟨[], []⟩ : Deck).cards_disc.length = 0 := ⟨rfl, rfl⟩

/-- C8 (amended): `draw_from_deck` returns a card whenever at least one of
the two piles is non-empty: with a non-empty draw pile it removes and
returns its top (last) card leaving the discard pile untouched; with an
empty draw pile it installs the discard pile as the new draw pile in its
existing order (not reshuffled), clears the discard pile, and pops the
top of the recycled pile.  Only when both piles are empty does the draw
fail. -/
theorem draw_from_deck_spec (d : Deck) :
    (∀ rest c, d.cards = rest ++ [c] →
      d.draw_from_deck = some (c, ⟨rest, d.cards_disc⟩)) ∧
    (∀ rest c, d.cards = [] → d.cards_disc = rest ++ [c] →
      d.draw_from_deck = some (c, ⟨rest, []⟩)) ∧
    (d.cards ≠ [] ∨ d.cards_disc ≠ [] → ∃ c d', d.draw_from_deck = some (c, d')) ∧
    (d.cards = [] → d.cards_disc = [] → d.draw_from_deck = none) := by
  refine ⟨?_, ?_, draw_total d, ?_⟩
  · intro rest c hcat
    rcases d with ⟨cards, disc⟩
    simp only at hcat
    rw [hcat]
    exact draw_nonempty rest c disc
  · intro rest c hnil hcat
    rcases d with ⟨cards, disc⟩
    simp only at hcat hnil
    rw [hcat, hnil]
    exact draw_recycle rest c
  · intro hnil hdisc
    rcases d with ⟨cards, disc⟩
    simp only at hnil hdisc
    rw [hnil, hdisc]
    rfl

/-- C8 (witness): the amended draw behavior at concrete decks — a one-card
draw pile, a recycle from a one-card discard pile, and the double-empty
failure. -/
theorem draw_from_deck_spec_witness :
    Deck.draw_from_deck ⟨[⟨"RED", .num 5⟩], [⟨"GRE", .num 3⟩]⟩
      = some (⟨"RED", .num 5⟩, ⟨[], [⟨"GRE", .num 3⟩]⟩) ∧
    Deck.draw_from_deck ⟨[], [⟨"GRE", .num 3⟩]⟩ = some (⟨"GRE", .num 3⟩, ⟨[], []⟩) ∧
    Deck.draw_from_deck ⟨[], []⟩ = none := by
  refine ⟨?_, ?_, (draw_from_deck_spec ⟨[], []⟩).2.2.2 rfl rfl⟩
  · exact (draw_from_deck_spec ⟨[⟨"RED", .num 5⟩], [⟨"GRE", .num 3⟩]⟩).1 [] ⟨"RED", .num 5⟩ rfl
  · exact (draw_from_deck_spec ⟨[], [⟨"GRE", .num 3⟩]⟩).2.1 [] ⟨"GRE", .num 3⟩ rfl rfl

/-- The turn-flow bookkeeping at the bottom of the game loop in
`Game.__init__` (game.py): the loop increments `turn_no` at the top of each
iteration, and after the turn decrements it when the played card's value is
in `["REV", "SKIP"]`, and again when the turn's penalty-chain counter is
positive and even.  The result is the `turn_no` of the next iteration. -/
def nextTurnNo (turn_no : Int) (v : CardValue) (count : Nat) : Int :=
  let t := turn_no
  let t := if v = .str "REV" ∨ v = .str "SKIP" then t - 1 else t
  let t := if 0 < count ∧ count % 2 = 0 then t - 1 else t
  t + 1

/-- The active player of an iteration is selected by the parity of
`turn_no`, so the same player holds the active role in the next iteration
exactly when the parity is unchanged. -/
def sameActiveNext (turn_no : Int) (v : CardValue) (count : Nat) : Prop :=
  nextTurnNo turn_no v count % 2 = turn_no % 2

/-- C3 (code bug): the skip cards built by `Deck.build` carry the value
"SKI", but the game loop tests the played value against the literal "SKIP",
which no built card carries; hence after a turn in which a skip card is
played (penalty counter 0) the active role alternates instead of being
retained.  The REV branch and the even-positive-counter branch behave as
specified. -/
theorem skip_card_does_not_retain_turn :
    (⟨"RED", .str "SKI"⟩ : Card) ∈ Deck.build.cards ∧
    (Deck.build.cards.all (fun c => c.value != CardValue.str "SKIP")) = true ∧
    ¬ sameActiveNext 1 (.str "SKI") 0 ∧
    sameActiveNext 1 (.str "REV") 0 ∧
    sameActiveNext 1 (.str "PL2") 2 := by
  refine ⟨by decide, by decide, ?_, ?_, ?_⟩ <;>
    (unfold sameActiveNext nextTurnNo; decide)

/-- Modelled from the spec: the class `Player` lives in `players.py`, which
is missing from the source tree; per spec §3 a hand is a multiset of cards
owned by one player.  Only the hand matters for card locations, so the
embedding keeps just that. -/
structure PlayerM where
  hand : List Card
deriving DecidableEq, Repr

/-- Modelled from the spec: `Player.draw` draws one card from the deck into
the player's hand (spec §4.4 FORCED_DRAW and the start-up dealing); the
playable-subset recomputation against the open card is omitted since it
moves no cards. -/
def PlayerM.draw (p : PlayerM) (d : Deck) : Option (PlayerM × Deck) :=
  d.draw_from_deck.map (fun x => (⟨p.hand ++ [x.1]⟩, x.2))

/-- The `value not in range(0, 10)` test of `Turn.start_up`, negated: a
digit value is "normal", a string value never is. -/
def isNormalOpen (c : Card) : Bool :=
  match c.value with
  | .num n => n < 10
  | .str _ => false

/-- The initial open-card loop of `Turn.start_up`: while the open card is
not normal, replace it with a fresh draw; the replaced candidates are not
returned to any pile.  Fuel-based recursion (each iteration consumes one
pile card); returns the final open card, the deck, and the number of
rejected candidates. -/
def openLoop : Nat → Card → Deck → Option (Card × Deck × Nat)
  | 0, _, _ => none
  | fuel + 1, c, d =>
    if isNormalOpen c then some (c, d, 0)
    else
      d.draw_from_deck.bind (fun x =>
        (openLoop fuel x.1 x.2).map (fun r => (r.1, r.2.1, r.2.2 + 1)))

/-- The dealing loop of `Turn.start_up`: `n` rounds of one card to each
player, player 1 first. -/
def dealLoop : Nat → PlayerM → PlayerM → Deck → Option (PlayerM × PlayerM × Deck)
  | 0, p1, p2, d => some (p1, p2, d)
  | n + 1, p1, p2, d =>
    (p1.draw d).bind (fun x =>
      (p2.draw x.2).bind (fun y => dealLoop n x.1 y.1 y.2))

/-- `Turn.__init__` followed by `Turn.start_up` on a deck `d`, the two
players starting with empty hands: draw the initial open card, redraw
while it is not normal, then deal 7 cards to each player.  Returns the
open card, the two players, the deck, and the number of rejected
candidates. -/
def turnInit (d : Deck) : Option (Card × PlayerM × PlayerM × Deck × Nat) :=
  d.draw_from_deck.bind (fun x =>
    (openLoop (x.2.cards.length + x.2.cards_disc.length + 1) x.1 x.2).bind (fun r =>
      (dealLoop 7 ⟨[]⟩ ⟨[]⟩ r.2.1).map (fun z => (r.1, z.1, z.2.1, z.2.2, r.2.2))))

/-- The number of cards in the three zones the claimed invariant tracks:
draw pile, discard pile, and both hands. -/
def threeZoneTotal (r : Card × PlayerM × PlayerM × Deck × Nat) : Nat :=
  r.2.2.2.1.cards.length + r.2.2.2.1.cards_disc.length
    + r.2.1.hand.length + r.2.2.1.hand.length

/-- Every rejected candidate of the open-card loop disappears from
circulation: final pile total plus rejects equals the entry pile total. -/
theorem openLoop_conservation : ∀ (fuel : Nat) (c : Card) (d : Deck) (c' : Card)
    (d' : Deck) (k : Nat), openLoop fuel c d = some (c', d', k) →
    d'.cards.length + d'.cards_disc.length + k = d.cards.length + d.cards_disc.length := by
  intro fuel
  induction fuel with
  | zero =>
    intro c d c' d' k h
    simp [openLoop] at h
  | succ n ih =>
    intro c d c' d' k h
    unfold openLoop at h
    by_cases hn : isNormalOpen c
    · simp only [hn, if_pos, ite_true, Option.some_inj, Prod.mk.injEq] at h
      rcases h with ⟨-, rfl, rfl⟩
      omega
    · simp only [hn, if_neg, ite_false, Bool.false_eq_true] at h
      cases hd : d.draw_from_deck with
      | none => rw [hd] at h; simp at h
      | some x =>
        rw [hd] at h
        simp only [Option.some_bind] at h
        cases hr : openLoop n x.1 x.2 with
        | none => rw [hr] at h; simp at h
        | some r =>
          rw [hr] at h
          simp only [Option.map_some', Option.some_inj, Prod.mk.injEq] at h
          rcases h with ⟨-, rfl, rfl⟩
          have h1 := ih x.1 x.2 r.1 r.2.1 r.2.2 hr
          have h2 := draw_conservation d x.1 x.2 hd
          omega

/-- A player's draw conserves the hand-plus-piles total and grows the hand
by one card. -/
theorem playerDraw_conservation (p : PlayerM) (d : Deck) (p' : PlayerM) (d' : Deck)
    (h : p.draw d = some (p', d')) :
    p'.hand.length + d'.cards.length + d'.cards_disc.length
      = p.hand.length + d.cards.length + d.cards_disc.length ∧
    p'.hand.length = p.hand.length + 1 := by
  unfold PlayerM.draw at h
  cases hd : d.draw_from_deck with
  | none => rw [hd] at h; simp at h
  | some x =>
    rw [hd] at h
    simp only [Option.map_some', Option.some_inj, Prod.mk.injEq] at h
    rcases h with ⟨rfl, rfl⟩
    have := draw_conservation d x.1 x.2 hd
    constructor
    · simp only [List.length_append, List.length_cons, List.length_nil]
      omega
    · simp

/-- Dealing conserves the total and gives each player exactly `n` cards. -/
theorem dealLoop_conservation : ∀ (n : Nat) (p1 p2 : PlayerM) (d : Deck)
    (p1' p2' : PlayerM) (d' : Deck), dealLoop n p1 p2 d = some (p1', p2', d') →
    p1'.hand.length + p2'.hand.length + d'.cards.length + d'.cards_disc.length
      = p1.hand.length + p2.hand.length + d.cards.length + d.cards_disc.length ∧
    p1'.hand.length = p1.hand.length + n ∧
    p2'.hand.length = p2.hand.length + n := by
  intro n
  induction n with
  | zero =>
    intro p1 p2 d p1' p2' d' h
    simp only [dealLoop, Option.some_inj, Prod.mk.injEq] at h
    rcases h with ⟨rfl, rfl, rfl⟩
    omega
  | succ n ih =>
    intro p1 p2 d p1' p2' d' h
    unfold dealLoop at h
    cases h1 : p1.draw d with
    | none => rw [h1] at h; simp at h
    | some x =>
      rw [h1] at h
      simp only [Option.some_bind] at h
      cases h2 : p2.draw x.2 with
      | none => rw [h2] at h; simp at h
      | some y =>
        rw [h2] at h
        simp only [Option.some_bind] at h
        have ha := playerDraw_conservation p1 d x.1 x.2 h1
        have hb := playerDraw_conservation p2 x.2 y.1 y.2 h2
        have hc := ih x.1 y.1 y.2 p1' p2' d' h
        omega

/-- C9 (counterexample): running `Turn.__init__`/`start_up` on the deck in
build order rejects the 8 wild cards from the top while searching for a
normal initial open card; afterwards the three zones (draw pile, discard
pile, hands) hold only 99 of the 108 built cards — the open card is in no
zone and the 8 rejected candidates have left circulation entirely. -/
theorem startup_breaks_card_total :
    Deck.build.cards.length = 108 ∧
    (turnInit Deck.build).map threeZoneTotal = some 99 ∧ (99 ≠ 108) := by
  refine ⟨by decide, by decide, by decide⟩

/-- C9 (amended): `Deck.build` produces exactly 108 cards (76 normal — the
72 doubled digits 1–9 plus 4 zeros — 24 special and 8 wild); every
successful draw moves one card between zones conserving the combined total,
and so does every dealt card; but the open card lives outside the three
zones of the claim, and every candidate rejected by the initial open-card
selection leaves circulation entirely, so after `start_up` the three-zone
total equals the built total minus 1 (open card) minus the number of
rejected candidates. -/
theorem deck_total_accounting :
    (Deck.build.cards.length = 108 ∧ Deck.build.cards_disc.length = 0 ∧
     cards_normal.length + cards_zero.length = 76 ∧
     cards_action.length = 24 ∧ cards_wild.length = 8) ∧
    (∀ (d : Deck) (c : Card) (d' : Deck), d.draw_from_deck = some (c, d') →
      d'.cards.length + d'.cards_disc.length + 1
        = d.cards.length + d.cards_disc.length) ∧
    (∀ (p : PlayerM) (d : Deck) (p' : PlayerM) (d' : Deck),
      p.draw d = some (p', d') →
      p'.hand.length + d'.cards.length + d'.cards_disc.length
        = p.hand.length + d.cards.length + d.cards_disc.length) ∧
    (∀ (d : Deck) (r : Card × PlayerM × PlayerM × Deck × Nat), turnInit d = some r →
      threeZoneTotal r + 1 + r.2.2.2.2 = d.cards.length + d.cards_disc.length) := by
  refine ⟨by refine ⟨by decide, by decide, by decide, by decide, by decide⟩,
    draw_conservation, fun p d p' d' h => (playerDraw_conservation p d p' d' h).1, ?_⟩
  intro d r h
  unfold turnInit at h
  cases hd : d.draw_from_deck with
  | none => rw [hd] at h; simp at h
  | some x =>
    rw [hd] at h
    simp only [Option.some_bind] at h
    cases ho : openLoop (x.2.cards.length + x.2.cards_disc.length + 1) x.1 x.2 with
    | none => rw [ho] at h; simp at h
    | some rr =>
      rw [ho] at h
      simp only [Option.some_bind] at h
      cases hz : dealLoop 7 ⟨[]⟩ ⟨[]⟩ rr.2.1 with
      | none => rw [hz] at h; simp at h
      | some z =>
        rw [hz] at h
        simp only [Option.map_some', Option.some_inj] at h
        have h1 := draw_conservation d x.1 x.2 hd
        have h2 := openLoop_conservation _ x.1 x.2 rr.1 rr.2.1 rr.2.2 ho
        have h3 := dealLoop_conservation 7 ⟨[]⟩ ⟨[]⟩ rr.2.1 z.1 z.2.1 z.2.2 hz
        subst h
        unfold threeZoneTotal
        dsimp only
        simp only [List.length_nil] at h3
        omega

/-- C9 (witness): the start-up accounting evaluated on the build-order
deck: three zones (99) plus the open card (1) plus the rejects (8) give
back the built total 108. -/
theorem deck_total_accounting_witness :
    (turnInit Deck.build).map (fun r => threeZoneTotal r + 1 + r.2.2.2.2) = some 108 := by
  cases hv : turnInit Deck.build with
  | none =>
    have hs : (turnInit Deck.build).isSome = true := by decide
    rw [hv] at hs
    simp at hs
  | some r =>
    have h := deck_total_accounting.2.2.2 Deck.build r hv
    simp only [Option.map_some', Option.some_inj]
    rw [h]
    decide

/-- The scan `card.value == "PL" + str(penalty)` of `action_plus`. -/
def isPenaltyCard (penalty : Nat) (c : Card) : Bool :=
  c.value == .str ("PL" ++ toString penalty)

/-- The first matching counter card in a hand, scanning in order (the
`for card in hand: if ...: break` of `action_plus`). -/
def findCounter (penalty : Nat) (hand : List Card) : Option Card :=
  hand.find? (isPenaltyCard penalty)

/-- The mutable state of one penalty chain: the two hands (original active
and original passive player), the deck, the open card and the chain
counter `self.count`. -/
structure ChainState where
  actHand : List Card
  pasHand : List Card
  deck : Deck
  openCard : Card
  count : Nat
deriving DecidableEq, Repr

/-- Modelled from the spec: `Player.play_counter` (in the missing
`players.py`) plays the given penalty card during a chain — the card leaves
the hand and becomes the open card (spec §4.4 PENALTY_CHAIN: "that player
plays it (updates open card, removed from hand)"), and the previous open
card joins the discard pile so that it stays in exactly one zone (spec §3).
This version is for the passive player's hand; the chain counter increment
`self.count += 1` of `action_plus` is folded in. -/
def playCounterPas (st : ChainState) (c : Card) : ChainState :=
  { st with
    pasHand := st.pasHand.erase c
    deck := st.deck.discard st.openCard
    openCard := c
    count := st.count + 1 }

/-- Modelled from the spec: as `playCounterPas`, for the active player's
hand. -/
def playCounterAct (st : ChainState) (c : Card) : ChainState :=
  { st with
    actHand := st.actHand.erase c
    deck := st.deck.discard st.openCard
    openCard := c
    count := st.count + 1 }

/-- Exits of the `while hit` loop of `action_plus`: a mid-chain win of the
passive or active player (immediate `return`, skipping any pending
penalty), or a normal chain end. -/
inductive ChainExit where
  | winPas (st : ChainState)
  | winAct (st : ChainState)
  | stop (st : ChainState)
deriving DecidableEq, Repr

def ChainExit.state : ChainExit → ChainState
  | .winPas st => st
  | .winAct st => st
  | .stop st => st

/-- The `while hit` loop of `action_plus`: the passive player counters if
possible (win check right after), then the active player counters if the
passive player did (win check right after); the loop repeats only when both
countered.  Fuel-based recursion: every continuing iteration removes one
card from the passive hand, so any fuel above the passive hand size is
enough. -/
def chainLoop (penalty : Nat) : Nat → ChainState → Option ChainExit
  | 0, _ => none
  | fuel + 1, st =>
    match findCounter penalty st.pasHand with
    | none =>
      if st.pasHand = [] then some (.winPas st)
      else if st.actHand = [] then some (.winAct st)
      else some (.stop st)
    | some c =>
      let st1 := playCounterPas st c
      if st1.pasHand = [] then some (.winPas st1)
      else
        match findCounter penalty st1.actHand with
        | none =>
          if st1.actHand = [] then some (.winAct st1)
          else some (.stop st1)
        | some c2 =>
          let st2 := playCounterAct st1 c2
          if st2.actHand = [] then some (.winAct st2)
          else chainLoop penalty fuel st2

/-- `n` consecutive deck draws into a hand (the
`for i in range(...): draw` penalty loops). -/
def drawMany : Nat → List Card → Deck → Option (List Card × Deck)
  | 0, hand, d => some (hand, d)
  | n + 1, hand, d =>
    d.draw_from_deck.bind (fun x => drawMany n (hand ++ [x.1]) x.2)

/-- The penalty application at normal chain end: an even total counter
makes the original active player draw `count * penalty` cards, an odd one
makes the original passive player draw them. -/
def applyPenalty (penalty : Nat) (st : ChainState) : Option ChainState :=
  if st.count % 2 = 0 then
    (drawMany (st.count * penalty) st.actHand st.deck).map
      (fun x => { st with actHand := x.1, deck := x.2 })
  else
    (drawMany (st.count * penalty) st.pasHand st.deck).map
      (fun x => { st with pasHand := x.1, deck := x.2 })

/-- `Turn.action_plus`: enter the chain with `hit, self.count = True, 1`,
run the counter loop, and on a normal chain end apply the parity-decided
penalty; a mid-chain win returns at once with no draws. -/
def actionPlus (penalty : Nat) (actHand pasHand : List Card) (d : Deck) (oc : Card) :
    Option ChainExit :=
  (chainLoop penalty (pasHand.length + 1) ⟨actHand, pasHand, d, oc, 1⟩).bind (fun ex =>
    match ex with
    | .stop st => (applyPenalty penalty st).map ChainExit.stop
    | e => some e)

theorem findCounter_mem {penalty : Nat} {hand : List Card} {c : Card}
    (h : findCounter penalty hand = some c) : c ∈ hand :=
  List.mem_of_find?_eq_some h

/-- Every draw of `drawMany` grows the hand by one and conserves the
hand-plus-piles total. -/
theorem drawMany_spec : ∀ (n : Nat) (hand : List Card) (d : Deck)
    (hand' : List Card) (d' : Deck), drawMany n hand d = some (hand', d') →
    hand'.length = hand.length + n ∧
    hand'.length + d'.cards.length + d'.cards_disc.length
      = hand.length + d.cards.length + d.cards_disc.length := by
  intro n
  induction n with
  | zero =>
    intro hand d hand' d' h
    simp only [drawMany, Option.some_inj, Prod.mk.injEq] at h
    rcases h with ⟨rfl, rfl⟩
    omega
  | succ n ih =>
    intro hand d hand' d' h
    unfold drawMany at h
    cases hd : d.draw_from_deck with
    | none => rw [hd] at h; simp at h
    | some x =>
      rw [hd] at h
      simp only [Option.some_bind] at h
      have h1 := ih (hand ++ [x.1]) x.2 hand' d' h
      have h2 := draw_conservation d x.1 x.2 hd
      simp only [List.length_append, List.length_cons, List.length_nil] at h1
      omega

/-- Inside the `while hit` loop no card is ever drawn: across any exit the
hands never grow, the deck piles never shrink, the counter never decreases,
and a win exit carries the empty hand that triggered it. -/
theorem chainLoop_exit_facts (penalty : Nat) : ∀ (fuel : Nat) (st : ChainState)
    (ex : ChainExit), chainLoop penalty fuel st = some ex →
    ex.state.actHand.length ≤ st.actHand.length ∧
    ex.state.pasHand.length ≤ st.pasHand.length ∧
    st.deck.cards.length + st.deck.cards_disc.length
      ≤ ex.state.deck.cards.length + ex.state.deck.cards_disc.length ∧
    st.count ≤ ex.state.count ∧
    (∀ s, ex = .winPas s → s.pasHand = []) ∧
    (∀ s, ex = .winAct s → s.actHand = []) := by
  intro fuel
  induction fuel with
  | zero =>
    intro st ex h
    simp [chainLoop] at h
  | succ n ih =>
    intro st ex h
    unfold chainLoop at h
    cases hf : findCounter penalty st.pasHand with
    | none =>
      rw [hf] at h
      by_cases hp : st.pasHand = []
      · rw [if_pos hp] at h
        rcases Option.some_inj.mp h with rfl
        refine ⟨le_refl _, le_refl _, le_refl _, le_refl _, ?_, ?_⟩
        · intro s hs
          cases hs
          exact hp
        · intro s hs
          cases hs
      · rw [if_neg hp] at h
        by_cases ha : st.actHand = []
        · rw [if_pos ha] at h
          rcases Option.some_inj.mp h with rfl
          refine ⟨le_refl _, le_refl _, le_refl _, le_refl _, ?_, ?_⟩
          · intro s hs
            cases hs
          · intro s hs
            cases hs
            exact ha
        · rw [if_neg ha] at h
          rcases Option.some_inj.mp h with rfl
          refine ⟨le_refl _, le_refl _, le_refl _, le_refl _, ?_, ?_⟩
          · intro s hs
            cases hs
          · intro s hs
            cases hs
    | some c =>
      rw [hf] at h
      simp only at h
      have hcm : c ∈ st.pasHand := findCounter_mem hf
      have hst1a : (playCounterPas st c).actHand = st.actHand := rfl
      have hst1p : (playCounterPas st c).pasHand.length + 1 = st.pasHand.length := by
        simp [playCounterPas, List.length_erase_of_mem hcm]
        have := List.length_pos.mpr (List.ne_nil_of_mem hcm)
        omega
      have hst1d : (playCounterPas st c).deck.cards.length
          + (playCounterPas st c).deck.cards_disc.length
          = st.deck.cards.length + st.deck.cards_disc.length + 1 := by
        simp [playCounterPas, Deck.discard]
        omega
      have hst1c : (playCounterPas st c).count = st.count + 1 := rfl
      by_cases hp1 : (playCounterPas st c).pasHand = []
      · rw [if_pos hp1] at h
        rcases Option.some_inj.mp h with rfl
        refine ⟨?_, ?_, ?_, ?_, ?_, ?_⟩
        · simp only [ChainExit.state]
          rw [hst1a]
        · simp only [ChainExit.state]
          omega
        · simp only [ChainExit.state]
          omega
        · simp only [ChainExit.state]
          omega
        · intro s hs
          cases hs
          exact hp1
        · intro s hs
          cases hs
      · rw [if_neg hp1] at h
        cases hf2 : findCounter penalty (playCounterPas st c).actHand with
        | none =>
          rw [hf2] at h
          by_cases ha1 : (playCounterPas st c).actHand = []
          · rw [if_pos ha1] at h
            rcases Option.some_inj.mp h with rfl
            refine ⟨?_, ?_, ?_, ?_, ?_, ?_⟩
            · simp only [ChainExit.state]
              rw [hst1a]
            · simp only [ChainExit.state]
              omega
            · simp only [ChainExit.state]
              omega
            · simp only [ChainExit.state]
              omega
            · intro s hs
              cases hs
            · intro s hs
              cases hs
              exact ha1
          · rw [if_neg ha1] at h
            rcases Option.some_inj.mp h with rfl
            refine ⟨?_, ?_, ?_, ?_, ?_, ?_⟩
            · simp only [ChainExit.state]
              rw [hst1a]
            · simp only [ChainExit.state]
              omega
            · simp only [ChainExit.state]
              omega
            · simp only [ChainExit.state]
              omega
            · intro s hs
              cases hs
            · intro s hs
              cases hs
        | some c2 =>
          rw [hf2] at h
          simp only at h
          have hc2m : c2 ∈ (playCounterPas st c).actHand := findCounter_mem hf2
          have hst2a : (playCounterAct (playCounterPas st c) c2).actHand.length + 1
              = (playCounterPas st c).actHand.length := by
            simp [playCounterAct, List.length_erase_of_mem hc2m]
            have := List.length_pos.mpr (List.ne_nil_of_mem hc2m)
            omega
          have hst2p : (playCounterAct (playCounterPas st c) c2).pasHand
              = (playCounterPas st c).pasHand := rfl
          have hst2d : (playCounterAct (playCounterPas st c) c2).deck.cards.length
              + (playCounterAct (playCounterPas st c) c2).deck.cards_disc.length
              = (playCounterPas st c).deck.cards.length
                + (playCounterPas st c).deck.cards_disc.length + 1 := by
            simp [playCounterAct, Deck.discard]
            omega
          have hst2c : (playCounterAct (playCounterPas st c) c2).count
              = st.count + 2 := rfl
          by_cases ha2 : (playCounterAct (playCounterPas st c) c2).actHand = []
          · rw [if_pos ha2] at h
            rcases Option.some_inj.mp h with rfl
            refine ⟨?_, ?_, ?_, ?_, ?_, ?_⟩
            · simp only [ChainExit.state]
              rw [← hst1a]
              omega
            · simp only [ChainExit.state]
              rw [hst2p]
              omega
            · simp only [ChainExit.state]
              omega
            · simp only [ChainExit.state]
              omega
            · intro s hs
              cases hs
            · intro s hs
              cases hs
              exact ha2
          · rw [if_neg ha2] at h
            have hrec := ih (playCounterAct (playCounterPas st c) c2) ex h
            rcases hrec with ⟨r1, r2, r3, r4, r5, r6⟩
            refine ⟨?_, ?_, ?_, ?_, r5, r6⟩
            · rw [← hst1a]
              omega
            · rw [hst2p] at r2
              omega
            · omega
            · omega

theorem applyPenalty_even (penalty : Nat) (st : ChainState) (h : st.count % 2 = 0)
    (hand' : List Card) (deck' : Deck)
    (hd : drawMany (st.count * penalty) st.actHand st.deck = some (hand', deck')) :
    applyPenalty penalty st = some { st with actHand := hand', deck := deck' } := by
  unfold applyPenalty
  rw [if_pos h, hd]
  rfl

theorem applyPenalty_odd (penalty : Nat) (st : ChainState) (h : ¬st.count % 2 = 0)
    (hand' : List Card) (deck' : Deck)
    (hd : drawMany (st.count * penalty) st.pasHand st.deck = some (hand', deck')) :
    applyPenalty penalty st = some { st with pasHand := hand', deck := deck' } := by
  unfold applyPenalty
  rw [if_neg h, hd]
  rfl

/-- C4: behavior of `Turn.action_plus`.  A mid-chain win by either player
(win checks run after every single counter-play) ends the whole chain at
once with no penalty cards drawn — both hands can only have shrunk since
chain entry.  A normal chain end applies the parity rule: an even final
counter makes the original active player draw `count * penalty` cards, an
odd one makes the original passive player draw them.  In particular, when
the opponent holds no matching penalty card the counter stays 1 and the
passive player draws `1 * penalty` cards while the active hand is
untouched. -/
theorem action_plus_spec (penalty : Nat) (actHand pasHand : List Card) (d : Deck)
    (oc : Card) :
    (∀ st, chainLoop penalty (pasHand.length + 1) ⟨actHand, pasHand, d, oc, 1⟩
        = some (.winPas st) →
      actionPlus penalty actHand pasHand d oc = some (.winPas st) ∧
      st.pasHand = [] ∧ st.actHand.length ≤ actHand.length) ∧
    (∀ st, chainLoop penalty (pasHand.length + 1) ⟨actHand, pasHand, d, oc, 1⟩
        = some (.winAct st) →
      actionPlus penalty actHand pasHand d oc = some (.winAct st) ∧
      st.actHand = [] ∧ st.pasHand.length ≤ pasHand.length) ∧
    (∀ st, chainLoop penalty (pasHand.length + 1) ⟨actHand, pasHand, d, oc, 1⟩
        = some (.stop st) →
      actionPlus penalty actHand pasHand d oc
        = (applyPenalty penalty st).map ChainExit.stop ∧
      (st.count % 2 = 0 → ∀ hand' deck',
        drawMany (st.count * penalty) st.actHand st.deck = some (hand', deck') →
        actionPlus penalty actHand pasHand d oc
          = some (.stop { st with actHand := hand', deck := deck' }) ∧
        hand'.length = st.actHand.length + st.count * penalty) ∧
      (¬st.count % 2 = 0 → ∀ hand' deck',
        drawMany (st.count * penalty) st.pasHand st.deck = some (hand', deck') →
        actionPlus penalty actHand pasHand d oc
          = some (.stop { st with pasHand := hand', deck := deck' }) ∧
        hand'.length = st.pasHand.length + st.count * penalty)) ∧
    (findCounter penalty pasHand = none → pasHand ≠ [] → actHand ≠ [] →
      chainLoop penalty (pasHand.length + 1) ⟨actHand, pasHand, d, oc, 1⟩
        = some (.stop ⟨actHand, pasHand, d, oc, 1⟩) ∧
      ∀ hand' deck', drawMany (1 * penalty) pasHand d = some (hand', deck') →
        actionPlus penalty actHand pasHand d oc
          = some (.stop ⟨actHand, hand', deck', oc, 1⟩) ∧
        hand'.length = pasHand.length + 1 * penalty) := by
  have hstop : ∀ st, chainLoop penalty (pasHand.length + 1) ⟨actHand, pasHand, d, oc, 1⟩
      = some (.stop st) →
      actionPlus penalty actHand pasHand d oc
        = (applyPenalty penalty st).map ChainExit.stop := by
    intro st hl
    unfold actionPlus
    rw [hl]
    rfl
  refine ⟨?_, ?_, ?_, ?_⟩
  · intro st hl
    have hfacts := chainLoop_exit_facts penalty (pasHand.length + 1)
      ⟨actHand, pasHand, d, oc, 1⟩ (.winPas st) hl
    refine ⟨?_, hfacts.2.2.2.2.1 st rfl, hfacts.1⟩
    unfold actionPlus
    rw [hl]
    rfl
  · intro st hl
    have hfacts := chainLoop_exit_facts penalty (pasHand.length + 1)
      ⟨actHand, pasHand, d, oc, 1⟩ (.winAct st) hl
    refine ⟨?_, hfacts.2.2.2.2.2 st rfl, hfacts.2.1⟩
    unfold actionPlus
    rw [hl]
    rfl
  · intro st hl
    refine ⟨hstop st hl, ?_, ?_⟩
    · intro hpar hand' deck' hdm
      refine ⟨?_, (drawMany_spec _ _ _ _ _ hdm).1⟩
      rw [hstop st hl, applyPenalty_even penalty st hpar hand' deck' hdm]
      rfl
    · intro hpar hand' deck' hdm
      refine ⟨?_, (drawMany_spec _ _ _ _ _ hdm).1⟩
      rw [hstop st hl, applyPenalty_odd penalty st hpar hand' deck' hdm]
      rfl
  · intro hf hp ha
    have hl : chainLoop penalty (pasHand.length + 1) ⟨actHand, pasHand, d, oc, 1⟩
        = some (.stop ⟨actHand, pasHand, d, oc, 1⟩) := by
      unfold chainLoop
      rw [show (⟨actHand, pasHand, d, oc, 1⟩ : ChainState).pasHand = pasHand from rfl, hf]
      rw [if_neg hp, if_neg ha]
    refine ⟨hl, ?_⟩
    intro hand' deck' hdm
    have hodd : ¬(⟨actHand, pasHand, d, oc, 1⟩ : ChainState).count % 2 = 0 := by
      show ¬(1 % 2 = 0)
      decide
    have happ := applyPenalty_odd penalty ⟨actHand, pasHand, d, oc, 1⟩ hodd hand' deck' hdm
    constructor
    · rw [hstop _ hl, happ]
      rfl
    · exact (drawMany_spec _ _ _ _ _ hdm).1

/-- C4 (witness): a concrete chain with penalty 2 in which the opponent has
no counter card: the counter stays 1 (odd), the passive player's hand grows
from 1 to 3 cards (`1 * 2` penalty draws) and the active hand is
untouched. -/
theorem action_plus_witness :
    actionPlus 2 [⟨"RED", .num 5⟩] [⟨"GRE", .num 3⟩]
        ⟨[⟨"BLU", .num 1⟩, ⟨"YEL", .num 2⟩], []⟩ ⟨"RED", .str "PL2"⟩
      = some (.stop ⟨[⟨"RED", .num 5⟩],
          [⟨"GRE", .num 3⟩, ⟨"YEL", .num 2⟩, ⟨"BLU", .num 1⟩], ⟨[], []⟩,
          ⟨"RED", .str "PL2"⟩, 1⟩) ∧
    ([⟨"GRE", .num 3⟩, ⟨"YEL", .num 2⟩, ⟨"BLU", .num 1⟩] : List Card).length
      = ([⟨"GRE", .num 3⟩] : List Card).length + 1 * 2 := by
  have h := (action_plus_spec 2 [⟨"RED", .num 5⟩] [⟨"GRE", .num 3⟩]
    ⟨[⟨"BLU", .num 1⟩, ⟨"YEL", .num 2⟩], []⟩ ⟨"RED", .str "PL2"⟩).2.2.2
      (by decide) (by decide) (by decide)
  have h2 := h.2 [⟨"GRE", .num 3⟩, ⟨"YEL", .num 2⟩, ⟨"BLU", .num 1⟩] ⟨[], []⟩ (by decide)
  exact ⟨h2.1, h2.2⟩
